import Mathlib

set_option maxHeartbeats 1000000

/-!
Shallow embedding of the incremental REPL evaluation engine in `src/bin.ts`
(session buffer, undo/commit transactions, diff-driven execution, recovery
classification, type queries), together with proofs of the specified
properties.

Strings of the source are modelled as `List Char` (the sequence of code
points the source iterates over); compiled output text is modelled by its
list of lines, since the engine only ever inspects it line-by-line through
the diff.
-/

/-- A line of compiled output text. -/
abbrev Line := String

/-- The session state `EVAL_INSTANCE = { input, output, version, lines }` of
`src/bin.ts` (line 62): cumulative source `input`, last committed compiled
`output`, commit counter `version`, and `lines`, the newline count of
`input`. -/
structure EvalInstance where
  input : List Char
  output : List Line
  version : Nat
  lines : Nat
  deriving DecidableEq, Repr

/-- The initial session state `{ input: '', output: '', version: 0, lines: 0 }`. -/
def EVAL_INSTANCE : EvalInstance := ⟨[], [], 0, 0⟩

/-- JavaScript regex whitespace class `\s` (the characters relevant to REPL
input; exotic Unicode spaces behave identically). -/
def isJsSpace (c : Char) : Bool :=
  c == ' ' || c == '\t' || c == '\n' || c == '\r' ||
  c == '\x0b' || c == '\x0c' || c == '\u00A0' || c == '\uFEFF'

/-- The appendEval regex test `/^\s*[\[\(\x60]/.test(input)` (line 237):
after leading whitespace the fragment starts with `[`, `(` or a backtick
(U+0060). -/
def startsBracketLike (s : List Char) : Bool :=
  match s.dropWhile isJsSpace with
  | [] => false
  | c :: _ => c == '[' || c == '(' || c == '\u0060'

/-- The appendEval regex test `/;\s*$/.test(undoInput)` (line 238): the text
ends with a semicolon followed only by whitespace. -/
def endsSemiThenWs (s : List Char) : Bool :=
  match s.reverse.dropWhile isJsSpace with
  | c :: _ => c == ';'
  | [] => false

/-- The `lineCount` helper of `src/bin.ts` (lines 258-268): number of
newline characters in the text. -/
def lineCount (value : List Char) : Nat :=
  value.count '\n'

/-- The snapshot captured by `appendEval` (lines 229-232): the four fields
`undoInput`, `undoOutput`, `undoVersion`, `undoLines`. -/
structure UndoSnapshot where
  undoInput : List Char
  undoOutput : List Line
  undoVersion : Nat
  undoLines : Nat
  deriving DecidableEq, Repr

/-- Invoking the undo closure returned by `appendEval` (lines 247-252): each
of the four fields of the current state is overwritten with the captured
snapshot value. -/
def applyUndo (u : UndoSnapshot) (_cur : EvalInstance) : EvalInstance :=
  { input := u.undoInput
    output := u.undoOutput
    version := u.undoVersion
    lines := u.undoLines }

/-- The `appendEval` function of `src/bin.ts` (lines 228-253): capture the
undo snapshot; if the current input ends in a newline, the fragment (after
leading whitespace) starts with `[`, `(` or a backtick, and the current
input does not already end in a semicolon followed by whitespace, replace
the trailing newline by a semicolon plus newline (the ASI hazard fix,
`input.slice(0, -1) + ';\n'`); then append the fragment, add its newline
count to `lines`, and increment `version`. -/
def appendEval (st : EvalInstance) (input : List Char) : EvalInstance × UndoSnapshot :=
  let undoInput := st.input
  let undoVersion := st.version
  let undoOutput := st.output
  let undoLines := st.lines
  let st1 :=
    if undoInput.getLast? == some '\n' && startsBracketLike input &&
        !endsSemiThenWs undoInput then
      { st with input := st.input.dropLast ++ [';', '\n'] }
    else
      st
  let st2 : EvalInstance :=
    { st1 with
      input := st1.input ++ input
      lines := st1.lines + lineCount input
      version := st1.version + 1 }
  (st2, ⟨undoInput, undoOutput, undoVersion, undoLines⟩)

/-- The structured compile failure thrown by the compiler bridge
(`TSError` with `diagnosticCodes` and `diagnosticText`). -/
structure TSError where
  diagnosticCodes : List Nat
  diagnosticText : String
  deriving DecidableEq, Repr

/-- The `RECOVERY_CODES` set of `src/bin.ts` (lines 297-305). -/
def RECOVERY_CODES : List Nat :=
  [1003, 1005, 1109, 1126, 1160, 1161, 2355]

/-- The `isRecoverable` classifier of `src/bin.ts` (lines 310-312): every
diagnostic code of the error is a member of `RECOVERY_CODES`. -/
def isRecoverable (error : TSError) : Bool :=
  error.diagnosticCodes.all fun code => RECOVERY_CODES.contains code

/-- Classification of a diff hunk: unchanged, added or removed. -/
inductive HunkKind where
  | unchanged
  | added
  | removed
  deriving DecidableEq, Repr

/-- A hunk of a line-level diff: a contiguous run of lines together with its
classification (the change objects returned by the diff library, where
`added`/`removed` flags encode the kind and `value` is the hunk text). -/
structure Hunk where
  kind : HunkKind
  value : List Line
  deriving DecidableEq, Repr

/-- Order-preserving containment of one line sequence in another (the old
lines all persist, in order, in the new text, though their positions may
shift as other lines are inserted around them). -/
def isSub : List Line → List Line → Bool
  | [], _ => true
  | _ :: _, [] => false
  | a :: as, b :: bs => if a = b then isSub as bs else isSub (a :: as) bs

/-- Number of hunks of a given kind. -/
def countKind (k : HunkKind) (hs : List Hunk) : Nat :=
  (hs.filter fun h => h.kind == k).length

/-- Cost of an edit script: its number of non-`unchanged` hunks. -/
def diffCost (hs : List Hunk) : Nat :=
  countKind HunkKind.added hs + countKind HunkKind.removed hs

/-- Modelled from the spec: the single-line steps of the line-level diff
computed by the external diff library (`diffLines`, not part of this
repository). Per spec section 4.3 the diff is an ordered line-level edit
script covering both inputs with no gaps and classifying lines as
unchanged, added or removed; like the library's Myers diff it is
cost-minimal (a matching pair of lines is always kept, and otherwise the
cheaper of the two one-line scripts is chosen). The recursion is driven by
an explicit fuel argument so the function is structurally recursive; the
out-of-fuel fallback (never reached from `diffSteps`, which supplies
enough fuel) still covers both inputs. -/
def diffStepsFuel : Nat → List Line → List Line → List Hunk
  | 0, as, bs =>
    (as.map fun a => ⟨HunkKind.removed, [a]⟩) ++ (bs.map fun b => ⟨HunkKind.added, [b]⟩)
  | _ + 1, [], bs => bs.map fun b => ⟨HunkKind.added, [b]⟩
  | fuel + 1, a :: as, [] => ⟨HunkKind.removed, [a]⟩ :: diffStepsFuel fuel as []
  | fuel + 1, a :: as, b :: bs =>
    if a = b then
      ⟨HunkKind.unchanged, [a]⟩ :: diffStepsFuel fuel as bs
    else
      let d1 := ⟨HunkKind.removed, [a]⟩ :: diffStepsFuel fuel as (b :: bs)
      let d2 := ⟨HunkKind.added, [b]⟩ :: diffStepsFuel fuel (a :: as) bs
      if diffCost d1 ≤ diffCost d2 then d1 else d2

/-- The single-line edit script between two line sequences. -/
def diffSteps (old new : List Line) : List Hunk :=
  diffStepsFuel (old.length + new.length) old new

/-- Modelled from the spec: the diff library merges consecutive lines of the
same classification into a single contiguous hunk (one change object per
contiguous run). -/
def groupHunks : List Hunk → List Hunk
  | [] => []
  | h :: hs =>
    match groupHunks hs with
    | [] => [h]
    | h' :: hs' =>
      if h.kind == h'.kind then ⟨h.kind, h.value ++ h'.value⟩ :: hs'
      else h :: h' :: hs'

/-- Modelled from the spec: `diffLines(previousOutput, newOutput)` of the
external diff library — the grouped, ordered, line-level minimal edit
script between the two texts. -/
def diffLines (old new : List Line) : List Hunk :=
  groupHunks (diffSteps old new)

/-- The hunks of an edit script that are tagged `added`, in hunk order, as
executable blocks (the blocks `exec` receives in the reduce of lines
93-95). -/
def addedBlocks (changes : List Hunk) : List (List Line) :=
  (changes.filter fun h => h.kind == HunkKind.added).map Hunk.value

/-- The value of the reduce over the diff (lines 93-95): the execution
result of the last added hunk, or `undefined` (`undef`) when the diff has
no added hunk. -/
def lastAddedResult {α : Type} (run : List Line → α) (undef : α)
    (changes : List Hunk) : α :=
  match (addedBlocks changes).getLast? with
  | some b => run b
  | none => undef

instance {ε α : Type} [DecidableEq ε] [DecidableEq α] : DecidableEq (Except ε α) := fun x y =>
  match x, y with
  | Except.ok a, Except.ok b =>
    if h : a = b then isTrue (congrArg Except.ok h)
    else isFalse fun he => h (Except.ok.inj he)
  | Except.error a, Except.error b =>
    if h : a = b then isTrue (congrArg Except.error h)
    else isFalse fun he => h (Except.error.inj he)
  | Except.ok _, Except.error _ => isFalse fun he => Except.noConfusion he
  | Except.error _, Except.ok _ => isFalse fun he => Except.noConfusion he

/-- The outcome of one `_eval` call: the session state afterwards, the
returned value or thrown compile error, and the instrumented trace of the
blocks handed to `exec`, in execution order. -/
structure EvalOutcome (α : Type) where
  state : EvalInstance
  result : Except TSError α
  executed : List (List Line)
  deriving DecidableEq, Repr

/-- The `_eval` function of `src/bin.ts` (lines 71-96). Parameters model the
external collaborators: `run` is the execution sandbox (`exec`, which runs
a block in the persistent context and yields its value), `undef` is the
JavaScript `undefined` starting value of the reduce, and `compile` is the
compiler bridge `service.compile` applied to the full input and the line
offset (the virtual path argument is the constant `EVAL_PATH` and is
omitted). The captured `lines`, the completion test `!/\n$/.test(input)`,
the append, the compile with rollback-and-rethrow on failure, the diff
against the previously committed output, the speculative rollback or
commit, and the reduce over added hunks follow the source line by line; the
`executed` field records each block passed to `exec` by the reduce. -/
def _eval {α : Type} (run : List Line → α) (undef : α)
    (compile : List Char → Int → Except TSError (List Line))
    (st : EvalInstance) (input : List Char) : EvalOutcome α :=
  let lines := st.lines
  let isCompletion := !(input.getLast? == some '\n')
  let app := appendEval st input
  let st1 := app.1
  let undo := app.2
  match compile st1.input (-(lines : Int)) with
  | Except.error err => ⟨applyUndo undo st1, Except.error err, []⟩
  | Except.ok output =>
    let changes := diffLines st1.output output
    let st2 := if isCompletion then applyUndo undo st1 else { st1 with output := output }
    let res := changes.foldl
      (fun acc change =>
        if change.kind == HunkKind.added then (run change.value, acc.2 ++ [change.value])
        else acc)
      (undef, ([] : List (List Line)))
    ⟨st2, Except.ok res.1, res.2⟩

/-- What `replEval` (lines 192-223) reports back through the REPL callback:
the `.scope` short-circuit, a value, the distinguished `Recoverable` signal
for incomplete input, or a fatal compile error whose diagnostic text is
printed. -/
inductive ReplOutcome (α : Type) where
  | scope
  | value (v : α)
  | recoverable (err : TSError)
  | fatal (diagnosticText : String)
  deriving DecidableEq, Repr

/-- The `replEval` function of `src/bin.ts` (lines 192-223): `.scope` is
skipped; otherwise `_eval` runs, a thrown `TSError` is classified by
`isRecoverable` (node's `Recoverable` wrapper versus printing
`diagnosticText`), and the session state and outcome are reported. Runtime
errors of executed code are outside the model (`run` is total). -/
def replEval {α : Type} (run : List Line → α) (undef : α)
    (compile : List Char → Int → Except TSError (List Line))
    (st : EvalInstance) (code : List Char) : EvalInstance × ReplOutcome α :=
  if code = ".scope".data then (st, ReplOutcome.scope)
  else
    let o := _eval run undef compile st code
    match o.result with
    | Except.ok r => (o.state, ReplOutcome.value r)
    | Except.error e =>
      if isRecoverable e then (o.state, ReplOutcome.recoverable e)
      else (o.state, ReplOutcome.fatal e.diagnosticText)

/-- The `{ name, comment }` record returned by `service.getTypeInfo`. -/
structure TypeInfo where
  name : String
  comment : String
  deriving DecidableEq, Repr

/-- The action of the `type` REPL command of `src/bin.ts` (lines 166-186),
with the `getTypeInfo` bridge as a parameter (it may return type
information or throw). An empty identifier returns early. Otherwise the
identifier is appended speculatively and `getTypeInfo` is called on the new
input at its end-of-buffer offset; when it returns, `undo()` runs and the
info is written out, but when it throws, the exception propagates before
the `undo()` on line 181 is reached, so the mutated state is kept. -/
def typeCommandAction {ε : Type} (getTypeInfo : List Char → Nat → Except ε TypeInfo)
    (st : EvalInstance) (identifier : List Char) :
    EvalInstance × Option (Except ε TypeInfo) :=
  if identifier = [] then (st, none)
  else
    let app := appendEval st identifier
    match getTypeInfo app.1.input app.1.input.length with
    | Except.ok info => (applyUndo app.2 app.1, some (Except.ok info))
    | Except.error e => (app.1, some (Except.error e))

/-- A whole REPL session: fold `_eval` over a list of submissions from a
starting state, accumulating the trace of every block handed to `exec`
across the session, in execution order. -/
def runSession {α : Type} (run : List Line → α) (undef : α)
    (compile : List Char → Int → Except TSError (List Line)) :
    EvalInstance → List (List Char) → EvalInstance × List (List Line)
  | st, [] => (st, [])
  | st, s :: rest =>
    let o := _eval run undef compile st s
    let r := runSession run undef compile o.state rest
    (r.1, o.executed ++ r.2)

/-- A session is well-formed when every submission compiles successfully
and each freshly compiled output still contains the lines of the previously
committed output, in order (already-executed statements persist even
though their line positions may shift as new code appears around them). -/
def sessionOK {α : Type} (run : List Line → α) (undef : α)
    (compile : List Char → Int → Except TSError (List Line)) :
    EvalInstance → List (List Char) → Bool
  | _, [] => true
  | st, s :: rest =>
    match compile (appendEval st s).1.input (-(st.lines : Int)) with
    | Except.error _ => false
    | Except.ok out =>
      isSub st.output out &&
      sessionOK run undef compile (_eval run undef compile st s).state rest

/-- The per-submission diffs of a session: for each submission, the
line-level diff between the previously committed output and the freshly
compiled output. -/
def sessionDiffs {α : Type} (run : List Line → α) (undef : α)
    (compile : List Char → Int → Except TSError (List Line)) :
    EvalInstance → List (List Char) → List (List Hunk)
  | _, [] => []
  | st, s :: rest =>
    match compile (appendEval st s).1.input (-(st.lines : Int)) with
    | Except.error _ => []
    | Except.ok out =>
      diffLines st.output out ::
        sessionDiffs run undef compile (_eval run undef compile st s).state rest

/-! Basic lemmas about the transaction machinery. -/

theorem applyUndo_appendEval (st : EvalInstance) (frag : List Char) (cur : EvalInstance) :
    applyUndo (appendEval st frag).2 cur = st := rfl

/-- Characterization of `_eval` when the compiler bridge throws: the undo
runs, the error is rethrown, and nothing reaches `exec`. -/
theorem eval_compile_error {α : Type} (run : List Line → α) (undef : α)
    (compile : List Char → Int → Except TSError (List Line))
    (st : EvalInstance) (input : List Char) (e : TSError)
    (h : compile (appendEval st input).1.input (-(st.lines : Int)) = Except.error e) :
    _eval run undef compile st input = ⟨st, Except.error e, []⟩ := by
  simp only [_eval, h]
  rw [applyUndo_appendEval]

/-- C2: for every call to appendEval (any fragment, any prior session
state), invoking the returned undo handle restores all four fields
{input, output, version, lines} of the session state to values equal to
those immediately before the appendEval call: undo after append is the
identity on session state. -/
theorem c2_undo_after_append_identity (st : EvalInstance) (frag : List Char) :
    applyUndo (appendEval st frag).2 (appendEval st frag).1 = st :=
  applyUndo_appendEval st frag _

/-- C8: appendEval inserts a semicolon at the boundary (replacing the
trailing newline of the stored input with a semicolon plus newline) if and
only if the current input ends in a newline, the fragment after leading
whitespace begins with a bracket, parenthesis or backtick, and the current
input does not already end with a semicolon followed by whitespace; in
every other case the fragment is concatenated unmodified. -/
theorem c8_asi_insertion_iff (st : EvalInstance) (frag : List Char) :
    (appendEval st frag).1.input =
      if st.input.getLast? = some '\n' ∧ startsBracketLike frag = true ∧
          endsSemiThenWs st.input = false then
        st.input.dropLast ++ [';', '\n'] ++ frag
      else
        st.input ++ frag := by
  by_cases h1 : st.input.getLast? = some '\n' <;>
    by_cases h2 : startsBracketLike frag = true <;>
      by_cases h3 : endsSemiThenWs st.input = false <;>
        simp [appendEval, h1, h2, h3, List.append_assoc]

/-- C4: isRecoverable classifies a compile error as recoverable if and only
if every code in its diagnosticCodes is a member of the fixed allow-list
{1003, 1005, 1109, 1126, 1160, 1161, 2355}; any code outside that set
anywhere in diagnosticCodes forces the fatal classification. -/
theorem c4_isRecoverable_iff_allowlist (error : TSError) :
    isRecoverable error = true ↔
      ∀ code ∈ error.diagnosticCodes,
        code ∈ ([1003, 1005, 1109, 1126, 1160, 1161, 2355] : List Nat) := by
  simp [isRecoverable, RECOVERY_CODES, List.all_eq_true]

/-- C5: when the compiler bridge call of a submission throws, the
transaction is rolled back before the error propagates: the session state
after the failed submission equals the state before it, the error is the
one the bridge threw, and nothing is executed. -/
theorem c5_compile_failure_is_atomic {α : Type} (run : List Line → α) (undef : α)
    (compile : List Char → Int → Except TSError (List Line))
    (st : EvalInstance) (input : List Char) (e : TSError)
    (h : compile (appendEval st input).1.input (-(st.lines : Int)) = Except.error e) :
    (_eval run undef compile st input).state = st ∧
      (_eval run undef compile st input).result = Except.error e ∧
      (_eval run undef compile st input).executed = [] := by
  rw [eval_compile_error run undef compile st input e h]
  exact ⟨rfl, rfl, rfl⟩

/-- Witness for C5 at a concrete failing bridge. -/
theorem c5_compile_failure_is_atomic_witness :
    ((fun _ _ => Except.error ⟨[2304], "Cannot find name."⟩ :
        List Char → Int → Except TSError (List Line))
          (appendEval EVAL_INSTANCE "x\n".data).1.input
          (-(EVAL_INSTANCE.lines : Int)) = Except.error ⟨[2304], "Cannot find name."⟩) ∧
      (_eval (fun b => b.length) 0
          (fun _ _ => Except.error ⟨[2304], "Cannot find name."⟩)
          EVAL_INSTANCE "x\n".data).state = EVAL_INSTANCE :=
  ⟨rfl, (c5_compile_failure_is_atomic (fun b => b.length) 0
      (fun _ _ => Except.error ⟨[2304], "Cannot find name."⟩)
      EVAL_INSTANCE "x\n".data ⟨[2304], "Cannot find name."⟩ rfl).1⟩

/-- C10: a compile error whose diagnosticCodes sequence is empty satisfies
the universally quantified allow-list test vacuously, so replEval signals
the distinguished recoverable (needs-more-input) outcome rather than the
fatal one, with the session state rolled back. -/
theorem c10_empty_codes_recoverable {α : Type} (run : List Line → α) (undef : α)
    (compile : List Char → Int → Except TSError (List Line))
    (st : EvalInstance) (code : List Char) (e : TSError)
    (hscope : code ≠ ".scope".data)
    (h : compile (appendEval st code).1.input (-(st.lines : Int)) = Except.error e)
    (hcodes : e.diagnosticCodes = []) :
    replEval run undef compile st code = (st, ReplOutcome.recoverable e) := by
  rw [replEval, if_neg hscope, eval_compile_error run undef compile st code e h]
  have hrec : isRecoverable e = true := by
    rw [isRecoverable, hcodes]
    rfl
  simp [hrec]

/-- Witness for C10 at a concrete bridge throwing an error with no
diagnostic codes. -/
theorem c10_empty_codes_recoverable_witness :
    (("x".data : List Char) ≠ ".scope".data) ∧
      replEval (fun b => b.length) 0
          (fun _ _ => Except.error ⟨[], "incomplete"⟩)
          EVAL_INSTANCE "x".data =
        (EVAL_INSTANCE, ReplOutcome.recoverable ⟨[], "incomplete"⟩) :=
  ⟨by decide, c10_empty_codes_recoverable (fun b => b.length) 0
      (fun _ _ => Except.error ⟨[], "incomplete"⟩)
      EVAL_INSTANCE "x".data ⟨[], "incomplete"⟩ (by decide) rfl rfl⟩

/-- C3 counterexample: the claim that the session state is identical before
and after a type query regardless of whether the getTypeInfo bridge call
succeeds or throws is false: with a bridge that throws, the state after the
query still contains the speculatively appended identifier, because the
undo on line 181 is only reached when line 175 returns normally. -/
theorem c3_type_query_counterexample :
    (typeCommandAction
        (fun _ _ => (Except.error "bridge failure" : Except String TypeInfo))
        EVAL_INSTANCE ['x']).1 ≠ EVAL_INSTANCE := by
  decide

/-- C3 amended: for every type query on which the getTypeInfo bridge call
returns normally (and for the empty-identifier early return), the rollback
runs and the session state {input, output, version, lines} is identical
before and after the query; when the bridge call throws, the rollback is
skipped and the state keeps the appended identifier. -/
theorem c3_type_query_rollback_on_success {ε : Type}
    (getTypeInfo : List Char → Nat → Except ε TypeInfo)
    (st : EvalInstance) (identifier : List Char) (info : TypeInfo)
    (h : getTypeInfo (appendEval st identifier).1.input
        (appendEval st identifier).1.input.length = Except.ok info) :
    (typeCommandAction getTypeInfo st identifier).1 = st := by
  rw [typeCommandAction]
  by_cases hid : identifier = []
  · rw [if_pos hid]
  · rw [if_neg hid]
    simp only [h]
    exact applyUndo_appendEval st identifier _

/-- Witness for the amended C3 at a concrete succeeding bridge. -/
theorem c3_type_query_rollback_on_success_witness :
    ((fun _ _ => (Except.ok ⟨"const x: number", ""⟩ : Except Unit TypeInfo))
        (appendEval EVAL_INSTANCE ['x']).1.input
        (appendEval EVAL_INSTANCE ['x']).1.input.length =
      Except.ok (⟨"const x: number", ""⟩ : TypeInfo)) ∧
      (typeCommandAction
          (fun _ _ => (Except.ok ⟨"const x: number", ""⟩ : Except Unit TypeInfo))
          EVAL_INSTANCE ['x']).1 = EVAL_INSTANCE :=
  ⟨rfl, c3_type_query_rollback_on_success
      (fun _ _ => (Except.ok ⟨"const x: number", ""⟩ : Except Unit TypeInfo))
      EVAL_INSTANCE ['x'] ⟨"const x: number", ""⟩ rfl⟩

/-! Characterization of a successful `_eval`. -/

theorem appendEval_output (st : EvalInstance) (frag : List Char) :
    (appendEval st frag).1.output = st.output := by
  rw [appendEval]
  dsimp only
  split <;> rfl

theorem appendEval_lines (st : EvalInstance) (frag : List Char) :
    (appendEval st frag).1.lines = st.lines + lineCount frag := by
  rw [appendEval]
  dsimp only
  split <;> rfl

/-- The reduce of lines 93-95, with the instrumented executed-block trace:
its value is the run of the last added hunk (or the initial accumulator
when no hunk is added), and its trace lists the added hunks in order. -/
theorem foldl_exec {α : Type} (run : List Line → α) (changes : List Hunk)
    (r0 : α) (l0 : List (List Line)) :
    changes.foldl
      (fun acc change =>
        if change.kind == HunkKind.added then (run change.value, acc.2 ++ [change.value])
        else acc) (r0, l0) =
      ((match (addedBlocks changes).getLast? with
        | some b => run b
        | none => r0),
       l0 ++ addedBlocks changes) := by
  induction changes generalizing r0 l0 with
  | nil => simp [addedBlocks]
  | cons c cs ih =>
    rw [List.foldl_cons]
    by_cases hk : (c.kind == HunkKind.added) = true
    · have ha : addedBlocks (c :: cs) = c.value :: addedBlocks cs := by
        simp [addedBlocks, List.filter_cons, hk]
      rw [if_pos hk, ih, ha]
      cases habs : addedBlocks cs with
      | nil => simp
      | cons x xs =>
        simp only [List.getLast?_cons_cons, List.cons_append, List.append_assoc]
        cases hg : (x :: xs).getLast? with
        | none => simp at hg
        | some b => simp
    · have ha : addedBlocks (c :: cs) = addedBlocks cs := by
        simp only [addedBlocks, List.filter_cons]
        rw [if_neg hk]
      rw [if_neg hk, ih, ha]

/-- Characterization of `_eval` when the compiler bridge succeeds: the diff
runs against the previously committed output, the state is committed (for
newline-terminated input) or rolled back (for a speculative fragment), the
result is the run of the last added hunk (or `undef` with no added hunk),
and exactly the added hunks are executed, in hunk order. -/
theorem eval_compile_ok {α : Type} (run : List Line → α) (undef : α)
    (compile : List Char → Int → Except TSError (List Line))
    (st : EvalInstance) (input : List Char) (out : List Line)
    (h : compile (appendEval st input).1.input (-(st.lines : Int)) = Except.ok out) :
    _eval run undef compile st input =
      ⟨if input.getLast? = some '\n' then { (appendEval st input).1 with output := out }
        else st,
       Except.ok (lastAddedResult run undef (diffLines st.output out)),
       addedBlocks (diffLines st.output out)⟩ := by
  simp only [_eval, h, foldl_exec, appendEval_output, applyUndo_appendEval,
    lastAddedResult, List.nil_append]
  by_cases hnl : input.getLast? = some '\n'
  · simp [hnl]
  · have : (input.getLast? == some '\n') = false := by
      simp [hnl]
    simp [this, hnl]

/-- C7: for every submission whose compile succeeds, the value _eval
returns is the execution result of the last added hunk in diff order
(earlier added hunks are executed but their results are discarded, as the
executed trace shows); when the diff between the previous committed output
and the new output has zero added hunks, nothing is executed and the
result is the undefined value. -/
theorem c7_result_is_last_added_hunk {α : Type} (run : List Line → α) (undef : α)
    (compile : List Char → Int → Except TSError (List Line))
    (st : EvalInstance) (input : List Char) (out : List Line)
    (h : compile (appendEval st input).1.input (-(st.lines : Int)) = Except.ok out) :
    (_eval run undef compile st input).executed = addedBlocks (diffLines st.output out) ∧
      (_eval run undef compile st input).result =
        Except.ok (lastAddedResult run undef (diffLines st.output out)) ∧
      (addedBlocks (diffLines st.output out) = [] →
        (_eval run undef compile st input).executed = [] ∧
          (_eval run undef compile st input).result = Except.ok undef) := by
  rw [eval_compile_ok run undef compile st input out h]
  refine ⟨rfl, rfl, fun hempty => ⟨hempty, ?_⟩⟩
  simp [lastAddedResult, hempty]

/-- Witness for C7: with committed output A and fresh output A,B the only
added hunk is B; it alone is executed and its result is returned. -/
theorem c7_result_is_last_added_hunk_witness :
    ((fun (_ : List Char) (_ : Int) => (Except.ok ["A", "B"] : Except TSError (List Line)))
        (appendEval ⟨"a\n".data, ["A"], 1, 1⟩ "b\n".data).1.input
        (-((⟨"a\n".data, ["A"], 1, 1⟩ : EvalInstance).lines : Int)) = Except.ok ["A", "B"]) ∧
      (_eval (fun b => b.length) 0 (fun _ _ => Except.ok ["A", "B"])
          ⟨"a\n".data, ["A"], 1, 1⟩ "b\n".data).executed = [["B"]] ∧
      (_eval (fun b => b.length) 0 (fun _ _ => Except.ok ["A", "B"])
          ⟨"a\n".data, ["A"], 1, 1⟩ "b\n".data).result = Except.ok 1 := by
  refine ⟨rfl, ?_, ?_⟩
  · rw [(c7_result_is_last_added_hunk (fun b => b.length) 0 (fun _ _ => Except.ok ["A", "B"])
        ⟨"a\n".data, ["A"], 1, 1⟩ "b\n".data ["A", "B"] rfl).1]
    decide
  · rw [(c7_result_is_last_added_hunk (fun b => b.length) 0 (fun _ _ => Except.ok ["A", "B"])
        ⟨"a\n".data, ["A"], 1, 1⟩ "b\n".data ["A", "B"] rfl).2.1]
    decide

/-- C6: a speculative submission (input not ending in a newline) whose
compile succeeds leaves no trace: the session state afterwards equals the
state before the submission, while the evaluation still returns the value
computed from the added hunks of the diff, which are executed. -/
theorem c6_speculative_isolation {α : Type} (run : List Line → α) (undef : α)
    (compile : List Char → Int → Except TSError (List Line))
    (st : EvalInstance) (input : List Char) (out : List Line)
    (hspec : input.getLast? ≠ some '\n')
    (h : compile (appendEval st input).1.input (-(st.lines : Int)) = Except.ok out) :
    (_eval run undef compile st input).state = st ∧
      (_eval run undef compile st input).result =
        Except.ok (lastAddedResult run undef (diffLines st.output out)) ∧
      (_eval run undef compile st input).executed = addedBlocks (diffLines st.output out) := by
  rw [eval_compile_ok run undef compile st input out h]
  exact ⟨by rw [if_neg hspec], rfl, rfl⟩

/-- Witness for C6: submitting the fragment 1+1 with no trailing newline
evaluates its compiled block but restores the initial session state. -/
theorem c6_speculative_isolation_witness :
    (("1+1".data : List Char).getLast? ≠ some '\n') ∧
      (_eval (fun b => b.length) 0 (fun _ _ => Except.ok ["2"])
          EVAL_INSTANCE "1+1".data).state = EVAL_INSTANCE :=
  ⟨by decide, (c6_speculative_isolation (fun b => b.length) 0 (fun _ _ => Except.ok ["2"])
      EVAL_INSTANCE "1+1".data ["2"] (by decide) rfl).1⟩

/-! The newline-count invariant. -/

theorem lineCount_append (a b : List Char) :
    lineCount (a ++ b) = lineCount a + lineCount b := by
  simp [lineCount, List.count_append]

theorem lineCount_appendEval (st : EvalInstance) (frag : List Char) :
    lineCount (appendEval st frag).1.input = lineCount st.input + lineCount frag := by
  rw [appendEval]
  dsimp only
  split
  · rename_i hcond
    have hlast : st.input.getLast? = some '\n' := by
      simp only [Bool.and_eq_true, beq_iff_eq] at hcond
      exact hcond.1.1
    have hsplit : st.input.dropLast ++ ['\n'] = st.input :=
      List.dropLast_append_getLast? '\n' (Option.mem_def.mpr hlast)
    have h1 : lineCount [';', '\n'] = 1 := by decide
    have h2 : lineCount ['\n'] = 1 := by decide
    conv_rhs => rw [← hsplit]
    rw [lineCount_append, lineCount_append, lineCount_append, h1, h2]
  · rw [lineCount_append]

/-- C9: the invariant that `lines` equals the number of newline characters
in `input` is preserved by appendEval (including the automatic-semicolon
insertion, which preserves the newline count) and by undo, and `_eval`
consults the compiler bridge only at the new input and the line offset
equal to the negation of the `lines` value captured before the fragment
was appended. -/
theorem c9_lines_invariant_and_offset {α : Type} (run : List Line → α) (undef : α)
    (st : EvalInstance) (frag : List Char)
    (h : st.lines = lineCount st.input) :
    (appendEval st frag).1.lines = lineCount (appendEval st frag).1.input ∧
      (∀ cur, (applyUndo (appendEval st frag).2 cur).lines =
        lineCount (applyUndo (appendEval st frag).2 cur).input) ∧
      (∀ c₁ c₂ : List Char → Int → Except TSError (List Line),
        c₁ (appendEval st frag).1.input (-(st.lines : Int)) =
          c₂ (appendEval st frag).1.input (-(st.lines : Int)) →
        _eval run undef c₁ st frag = _eval run undef c₂ st frag) := by
  refine ⟨?_, ?_, ?_⟩
  · rw [appendEval_lines, lineCount_appendEval, h]
  · intro cur
    rw [applyUndo_appendEval, ← h]
  · intro c₁ c₂ hagree
    simp only [_eval]
    rw [hagree]

/-- Witness for C9 at the initial state and a one-line fragment. -/
theorem c9_lines_invariant_and_offset_witness :
    (EVAL_INSTANCE.lines = lineCount EVAL_INSTANCE.input) ∧
      (appendEval EVAL_INSTANCE "a\n".data).1.lines =
        lineCount (appendEval EVAL_INSTANCE "a\n".data).1.input :=
  ⟨rfl, (c9_lines_invariant_and_offset (fun (b : List Line) => b.length) 0
      EVAL_INSTANCE "a\n".data rfl).1⟩

/-! Lemmas about the modelled diff. -/

/-- The lines of the hunks selected by `p`, in order. -/
def hunkLines (p : Hunk → Bool) (hs : List Hunk) : List Line :=
  ((hs.filter p).map Hunk.value).flatten

theorem countKind_cons (k : HunkKind) (h : Hunk) (hs : List Hunk) :
    countKind k (h :: hs) = (if h.kind = k then 1 else 0) + countKind k hs := by
  by_cases hk : h.kind = k <;> simp [countKind, List.filter_cons, hk, Nat.add_comm]

theorem countKind_append (k : HunkKind) (l1 l2 : List Hunk) :
    countKind k (l1 ++ l2) = countKind k l1 + countKind k l2 := by
  simp [countKind, List.filter_append]

theorem countKind_map_single (k k' : HunkKind) (xs : List Line) :
    countKind k (xs.map fun x => (⟨k', [x]⟩ : Hunk)) = if k' = k then xs.length else 0 := by
  induction xs with
  | nil => simp [countKind]
  | cons x xs ih =>
    simp only [List.map_cons, countKind_cons, ih]
    by_cases hk : k' = k <;> simp [hk, Nat.add_comm]

theorem hunkLines_cons (p : Hunk → Bool) (h : Hunk) (hs : List Hunk) :
    hunkLines p (h :: hs) = (if p h then h.value else []) ++ hunkLines p hs := by
  by_cases hp : p h <;> simp [hunkLines, List.filter_cons, hp]

theorem hunkLines_append (p : Hunk → Bool) (l1 l2 : List Hunk) :
    hunkLines p (l1 ++ l2) = hunkLines p l1 ++ hunkLines p l2 := by
  simp [hunkLines, List.filter_append]

theorem hunkLines_map_single_true (p : Hunk → Bool) (k : HunkKind) (xs : List Line)
    (hp : ∀ x, p ⟨k, [x]⟩ = true) :
    hunkLines p (xs.map fun x => (⟨k, [x]⟩ : Hunk)) = xs := by
  induction xs with
  | nil => rfl
  | cons x xs ih => simp [List.map_cons, hunkLines_cons, hp, ih]

theorem hunkLines_map_single_false (p : Hunk → Bool) (k : HunkKind) (xs : List Line)
    (hp : ∀ x, p ⟨k, [x]⟩ = false) :
    hunkLines p (xs.map fun x => (⟨k, [x]⟩ : Hunk)) = [] := by
  induction xs with
  | nil => rfl
  | cons x xs ih => simp [List.map_cons, hunkLines_cons, hp, ih]

/-- Unchanged plus removed hunks of the edit script account exactly for the
lines of the old text. -/
theorem dsf_count_old (fuel : Nat) : ∀ as bs : List Line,
    countKind HunkKind.unchanged (diffStepsFuel fuel as bs) +
      countKind HunkKind.removed (diffStepsFuel fuel as bs) = as.length := by
  induction fuel with
  | zero =>
    intro as bs
    simp [diffStepsFuel, countKind_append, countKind_map_single]
  | succ fuel ih =>
    intro as bs
    cases as with
    | nil => simp [diffStepsFuel, countKind_map_single]
    | cons a as =>
      cases bs with
      | nil =>
        have h := ih as []
        simp only [diffStepsFuel]
        simp [countKind_cons]
        omega
      | cons b bs =>
        by_cases hab : a = b
        · have h := ih as bs
          simp only [diffStepsFuel, if_pos hab]
          simp [countKind_cons]
          omega
        · simp only [diffStepsFuel, if_neg hab]
          split
          · have h := ih as (b :: bs)
            simp [countKind_cons] at h ⊢
            omega
          · have h := ih (a :: as) bs
            simp [countKind_cons] at h ⊢
            omega

/-- Unchanged plus added hunks of the edit script account exactly for the
lines of the new text. -/
theorem dsf_count_new (fuel : Nat) : ∀ as bs : List Line,
    countKind HunkKind.unchanged (diffStepsFuel fuel as bs) +
      countKind HunkKind.added (diffStepsFuel fuel as bs) = bs.length := by
  induction fuel with
  | zero =>
    intro as bs
    simp [diffStepsFuel, countKind_append, countKind_map_single]
  | succ fuel ih =>
    intro as bs
    cases as with
    | nil => simp [diffStepsFuel, countKind_map_single]
    | cons a as =>
      cases bs with
      | nil =>
        have h := ih as []
        simp only [diffStepsFuel]
        simp [countKind_cons] at h ⊢
        omega
      | cons b bs =>
        by_cases hab : a = b
        · have h := ih as bs
          simp only [diffStepsFuel, if_pos hab]
          simp [countKind_cons]
          omega
        · simp only [diffStepsFuel, if_neg hab]
          split
          · have h := ih as (b :: bs)
            simp [countKind_cons] at h ⊢
            omega
          · have h := ih (a :: as) bs
            simp [countKind_cons] at h ⊢
            omega

/-- Minimality bound: when every old line persists in order in the new
text, the edit script with enough fuel is cheap enough that it can contain
no removed hunk. -/
theorem dsf_cost_le (fuel : Nat) : ∀ as bs : List Line,
    as.length + bs.length ≤ fuel → isSub as bs = true →
    diffCost (diffStepsFuel fuel as bs) + as.length ≤ bs.length := by
  induction fuel with
  | zero =>
    intro as bs hlen _
    have ha : as = [] := List.length_eq_zero.mp (by omega)
    have hb : bs = [] := List.length_eq_zero.mp (by omega)
    subst ha
    subst hb
    simp [diffStepsFuel, diffCost, countKind]
  | succ fuel ih =>
    intro as bs hlen hsub
    cases as with
    | nil =>
      simp [diffStepsFuel, diffCost, countKind_map_single]
    | cons a as =>
      cases bs with
      | nil => simp [isSub] at hsub
      | cons b bs =>
        by_cases hab : a = b
        · have hsub' : isSub as bs = true := by
            rw [isSub, if_pos hab] at hsub
            exact hsub
          have h := ih as bs (by simp at hlen ⊢; omega) hsub'
          simp only [diffStepsFuel, if_pos hab]
          simp [diffCost, countKind_cons] at h ⊢
          omega
        · have hsub' : isSub (a :: as) bs = true := by
            rw [isSub, if_neg hab] at hsub
            exact hsub
          have h := ih (a :: as) bs (by simp at hlen ⊢; omega) hsub'
          simp only [diffStepsFuel, if_neg hab]
          split
          · rename_i hcmp
            simp [diffCost, countKind_cons] at h hcmp ⊢
            omega
          · simp [diffCost, countKind_cons] at h ⊢
            omega

/-- When every old line persists in order in the new text, the edit script
contains no removed hunk. -/
theorem diffSteps_no_removed (old new : List Line) (h : isSub old new = true) :
    countKind HunkKind.removed (diffSteps old new) = 0 := by
  have h1 := dsf_count_old (old.length + new.length) old new
  have h2 := dsf_count_new (old.length + new.length) old new
  have h3 := dsf_cost_le (old.length + new.length) old new (le_refl _) h
  rw [diffSteps]
  simp only [diffSteps, diffCost] at h1 h2 h3
  omega

/-- The non-added hunks of the edit script reassemble exactly the old
text. -/
theorem dsf_not_added (fuel : Nat) : ∀ as bs : List Line,
    hunkLines (fun h => !(h.kind == HunkKind.added)) (diffStepsFuel fuel as bs) = as := by
  induction fuel with
  | zero =>
    intro as bs
    rw [diffStepsFuel, hunkLines_append,
      hunkLines_map_single_true _ _ _ (fun _ => rfl),
      hunkLines_map_single_false _ _ _ (fun _ => rfl),
      List.append_nil]
  | succ fuel ih =>
    intro as bs
    cases as with
    | nil =>
      rw [diffStepsFuel, hunkLines_map_single_false _ _ _ (fun _ => rfl)]
    | cons a as =>
      cases bs with
      | nil => simp [diffStepsFuel, hunkLines_cons, ih]
      | cons b bs =>
        by_cases hab : a = b
        · simp only [diffStepsFuel, if_pos hab]
          simp [hunkLines_cons, ih, hab]
        · simp only [diffStepsFuel, if_neg hab]
          split
          · simp [hunkLines_cons, ih]
          · simp [hunkLines_cons, ih]

/-- The non-removed hunks of the edit script reassemble exactly the new
text. -/
theorem dsf_not_removed (fuel : Nat) : ∀ as bs : List Line,
    hunkLines (fun h => !(h.kind == HunkKind.removed)) (diffStepsFuel fuel as bs) = bs := by
  induction fuel with
  | zero =>
    intro as bs
    rw [diffStepsFuel, hunkLines_append,
      hunkLines_map_single_false _ _ _ (fun _ => rfl),
      hunkLines_map_single_true _ _ _ (fun _ => rfl),
      List.nil_append]
  | succ fuel ih =>
    intro as bs
    cases as with
    | nil =>
      rw [diffStepsFuel, hunkLines_map_single_true _ _ _ (fun _ => rfl)]
    | cons a as =>
      cases bs with
      | nil => simp [diffStepsFuel, hunkLines_cons, ih]
      | cons b bs =>
        by_cases hab : a = b
        · simp only [diffStepsFuel, if_pos hab]
          simp [hunkLines_cons, ih, hab]
        · simp only [diffStepsFuel, if_neg hab]
          split
          · simp [hunkLines_cons, ih]
          · simp [hunkLines_cons, ih]

/-- The lines of an edit script split, up to permutation, into the lines of
its added hunks and the lines of its non-added hunks. -/
theorem flatten_perm_added (hs : List Hunk) :
    ((hs.map Hunk.value).flatten).Perm
      (hunkLines (fun h => h.kind == HunkKind.added) hs ++
        hunkLines (fun h => !(h.kind == HunkKind.added)) hs) := by
  induction hs with
  | nil => simp [hunkLines]
  | cons h hs ih =>
    by_cases hp : (h.kind == HunkKind.added) = true
    · simp only [List.map_cons, List.flatten_cons, hunkLines_cons, hp, Bool.not_true,
        if_true, if_false]
      rw [List.append_assoc]
      exact List.Perm.append_left h.value ih
    · have hp' : (h.kind == HunkKind.added) = false := by
        simp at hp
        simp [hp]
      simp only [List.map_cons, List.flatten_cons, hunkLines_cons, hp', Bool.not_false,
        if_true, if_false]
      exact (List.Perm.append_left h.value ih).trans
        (List.perm_append_comm_assoc h.value _ _)

/-- A script without removed hunks has no member tagged removed. -/
theorem countKind_zero_members (k : HunkKind) (hs : List Hunk)
    (h : countKind k hs = 0) :
    ∀ x ∈ hs, (x.kind == k) = false := by
  intro x hx
  have hnil : hs.filter (fun h => h.kind == k) = [] :=
    List.length_eq_zero.mp h
  have := List.filter_eq_nil_iff.mp hnil x hx
  simpa using this

/-- Grouping contiguous hunks of equal kind preserves, for each kind, the
concatenated lines of that kind. -/
theorem hunkLines_groupHunks (k : HunkKind) (hs : List Hunk) :
    hunkLines (fun h => h.kind == k) (groupHunks hs) =
      hunkLines (fun h => h.kind == k) hs := by
  induction hs with
  | nil => rfl
  | cons h hs ih =>
    simp only [groupHunks]
    cases hg : groupHunks hs with
    | nil =>
      dsimp only
      rw [hg] at ih
      have hnil : hunkLines (fun h => h.kind == k) hs = [] := by
        rw [← ih]
        rfl
      rw [hunkLines_cons, hunkLines_cons, hnil]
      rfl
    | cons h' hs' =>
      dsimp only
      rw [hg] at ih
      by_cases hk : (h.kind == h'.kind) = true
      · rw [if_pos hk]
        rw [hunkLines_cons, hunkLines_cons, ← ih, hunkLines_cons]
        have hkk : h'.kind = h.kind := by
          have := (beq_iff_eq).mp hk
          exact this.symm
        by_cases hhk : (h.kind == k) = true
        · rw [if_pos (by simpa using hhk), if_pos hhk, if_pos (by rw [hkk]; exact hhk),
            List.append_assoc]
        · have hhk' : (h.kind == k) = false := by simpa using (by simpa using hhk)
          rw [if_neg (by simp [hhk']), if_neg (by simp [hhk']),
            if_neg (by simp [hkk, hhk'])]
          rfl
      · rw [if_neg (by simp at hk ⊢; exact hk)]
        rw [hunkLines_cons, ih, hunkLines_cons]

/-- Per-submission execution accounting: when the previously committed
output persists in order inside the freshly compiled output, the added
hunks of the diff contain, up to permutation, exactly the new output lines
minus the old ones: added lines plus old lines are a permutation of the
new output. -/
theorem diff_step_perm (old new : List Line) (h : isSub old new = true) :
    ((addedBlocks (diffLines old new)).flatten ++ old).Perm new := by
  have hrem := diffSteps_no_removed old new h
  have hadded : (addedBlocks (diffLines old new)).flatten =
      hunkLines (fun x => x.kind == HunkKind.added) (diffSteps old new) :=
    hunkLines_groupHunks HunkKind.added (diffSteps old new)
  have hall : (diffSteps old new).filter (fun x => !(x.kind == HunkKind.removed)) =
      diffSteps old new :=
    List.filter_eq_self.mpr (by
      intro x hx
      simp [countKind_zero_members _ _ hrem x hx])
  have hnew : ((diffSteps old new).map Hunk.value).flatten = new := by
    have hr := dsf_not_removed (old.length + new.length) old new
    rw [diffSteps] at hall
    rw [hunkLines, hall] at hr
    rw [diffSteps]
    exact hr
  have hold := dsf_not_added (old.length + new.length) old new
  have hperm := flatten_perm_added (diffSteps old new)
  rw [hnew] at hperm
  rw [diffSteps] at hadded hperm
  rw [hold] at hperm
  rw [hadded]
  exact hperm.symm

/-- Session accounting: along a well-formed session of newline-terminated
submissions, the trace of executed blocks consists, submission by
submission, of exactly the added hunks of that submission's diff, and the
executed lines together with the starting committed output are a
permutation of the final committed output. -/
theorem session_spec {α : Type} (run : List Line → α) (undef : α)
    (compile : List Char → Int → Except TSError (List Line)) :
    ∀ (subs : List (List Char)) (st : EvalInstance),
    (∀ s ∈ subs, s.getLast? = some '\n') →
    sessionOK run undef compile st subs = true →
    (runSession run undef compile st subs).2 =
      ((sessionDiffs run undef compile st subs).map addedBlocks).flatten ∧
    ((runSession run undef compile st subs).2.flatten ++ st.output).Perm
      (runSession run undef compile st subs).1.output := by
  intro subs
  induction subs with
  | nil =>
    intro st _ _
    exact ⟨rfl, by simp [runSession]⟩
  | cons s rest ih =>
    intro st hnl hok
    rw [sessionOK] at hok
    cases hc : compile (appendEval st s).1.input (-(st.lines : Int)) with
    | error e =>
      rw [hc] at hok
      simp at hok
    | ok out =>
      rw [hc] at hok
      simp only [Bool.and_eq_true] at hok
      obtain ⟨hsub, hrest⟩ := hok
      have hnl1 : s.getLast? = some '\n' := hnl s (by simp)
      have hstep : _eval run undef compile st s =
          ⟨{ (appendEval st s).1 with output := out },
            Except.ok (lastAddedResult run undef (diffLines st.output out)),
            addedBlocks (diffLines st.output out)⟩ := by
        rw [eval_compile_ok run undef compile st s out hc, if_pos hnl1]
      rw [hstep] at hrest
      have hih := ih { (appendEval st s).1 with output := out }
        (fun x hx => hnl x (by simp [hx])) hrest
      rw [runSession, sessionDiffs, hc, hstep]
      dsimp only
      constructor
      · rw [hih.1, List.map_cons, List.flatten_cons]
      · have hperm2 := hih.2
        have hso : ({ (appendEval st s).1 with output := out } : EvalInstance).output = out := rfl
        rw [hso] at hperm2
        rw [List.flatten_append, List.append_assoc]
        refine (List.perm_append_comm_assoc _ _ _).trans ?_
        exact (List.Perm.append_left _ (diff_step_perm st.output out hsub)).trans hperm2

/-- C1: across a whole session of newline-terminated submissions that each
compile successfully (with already-executed statements persisting in the
recompiled output even as their line positions shift), the engine executes,
in each submission, exactly the hunks the diff tags as added, in hunk
order — hunks tagged unchanged or removed are never executed — and the
executed lines over the whole session are, up to permutation, exactly the
lines of the final committed output: every statement's compiled code is
executed at most once (indeed exactly once) in the life of the session. -/
theorem c1_added_hunks_executed_at_most_once {α : Type} (run : List Line → α) (undef : α)
    (compile : List Char → Int → Except TSError (List Line))
    (subs : List (List Char))
    (hnl : ∀ s ∈ subs, s.getLast? = some '\n')
    (hok : sessionOK run undef compile EVAL_INSTANCE subs = true) :
    (runSession run undef compile EVAL_INSTANCE subs).2 =
      ((sessionDiffs run undef compile EVAL_INSTANCE subs).map addedBlocks).flatten ∧
    ((runSession run undef compile EVAL_INSTANCE subs).2.flatten).Perm
      (runSession run undef compile EVAL_INSTANCE subs).1.output := by
  have h := session_spec run undef compile subs EVAL_INSTANCE hnl hok
  refine ⟨h.1, ?_⟩
  have h2 := h.2
  rw [show (EVAL_INSTANCE.output : List Line) = [] from rfl, List.append_nil] at h2
  exact h2

/-- A two-submission demonstration bridge: the first submission compiles to
one line A, the second recompiles the grown buffer to A,B (A keeps its
position; B is new). -/
def sampleCompile : List Char → Int → Except TSError (List Line) :=
  fun inp _ =>
    if inp = "a\n".data then Except.ok ["A"]
    else if inp = "a\nb\n".data then Except.ok ["A", "B"]
    else Except.error ⟨[1005], "expected"⟩

/-- Witness for C1 on a concrete two-submission session. -/
theorem c1_added_hunks_executed_at_most_once_witness :
    (∀ s ∈ [("a\n".data : List Char), "b\n".data], s.getLast? = some '\n') ∧
      (sessionOK (fun (b : List Line) => b.length) 0 sampleCompile EVAL_INSTANCE
        ["a\n".data, "b\n".data] = true) ∧
      ((runSession (fun (b : List Line) => b.length) 0 sampleCompile EVAL_INSTANCE
          ["a\n".data, "b\n".data]).2.flatten).Perm
        ((runSession (fun (b : List Line) => b.length) 0 sampleCompile EVAL_INSTANCE
          ["a\n".data, "b\n".data]).1.output) :=
  ⟨by decide, by decide,
    (c1_added_hunks_executed_at_most_once (fun (b : List Line) => b.length) 0 sampleCompile
      ["a\n".data, "b\n".data] (by decide) (by decide)).2⟩
